import Mathlib

/-!
Verification of `opal/util/convert-help-files-to-c-code.py`: a build-time
generator that locates `help-*.txt` files under a root directory, parses them
as INI-style section files, and emits a C source file containing static lookup
tables together with the accessor `opal_show_help_get_content`.

Strings are modelled as `List Char`; files as lists of lines (the Python code
iterates over a file's lines).  Python dictionaries are modelled as ordered
association lists with insert-or-overwrite (`upsert`) semantics, which matches
the insertion-order / key-overwrite behaviour of `dict` that the script relies
on.
-/

namespace HelpGen

abbrev Line := List Char

/-- One file's sections: ordered map from section name to accumulated lines. -/
abbrev Sections := List (Line × List Line)

/-- The parsed corpus: ordered map from base filename to its sections. -/
abbrev Corpus := List (Line × Sections)

/-! ### Python string primitives used by the script -/

/-- The whitespace characters removed by Python's `str.strip()` (ASCII range). -/
def isPySpace (c : Char) : Bool :=
  c = ' ' || c = '\t' || c = '\n' || c = '\r' || c = '\x0b' || c = '\x0c'

/-- `line.strip()`: drop leading and trailing whitespace. -/
def pyStrip (l : Line) : Line :=
  ((l.dropWhile isPySpace).reverse.dropWhile isPySpace).reverse

/-- `s.startswith(c)` for a single-character pattern. -/
def startsWithChar (c : Char) : Line → Bool
  | [] => false
  | a :: _ => a = c

/-- `s.endswith(c)` for a single-character pattern. -/
def endsWithChar (c : Char) (l : Line) : Bool :=
  match l.getLast? with
  | some a => a = c
  | none => false

/-- `s.replace(t, r)` for a single-character pattern `t`: every occurrence of
the character `t` is replaced by the string `r` (for a one-character pattern,
Python's substring replacement is exactly this character-wise substitution). -/
def replaceChar (t : Char) (r : List Char) (l : List Char) : List Char :=
  l.flatMap (fun c => if c = t then r else [c])

/-- `sep.join(pieces)`. -/
def joinWith (sep : List Char) : List (List Char) → List Char
  | [] => []
  | [x] => x
  | x :: y :: rest => x ++ sep ++ joinWith sep (y :: rest)

/-- `"\n".join(content_list)` (source line 92). -/
def joinNL (ls : List Line) : Line := joinWith ['\n'] ls

/-! ### Ordered association lists standing for Python dicts -/

/-- First-match lookup in an association list (`d[k]` / `k in d`). -/
def alookup (k : Line) : List (Line × α) → Option α
  | [] => none
  | (k', v) :: rest => if k' = k then some v else alookup k rest

/-- `d[k] = v` on a Python dict: overwrite in place if the key is present
(keeping its position), otherwise append the new binding at the end. -/
def upsert (k : Line) (v : α) : List (Line × α) → List (Line × α)
  | [] => [(k, v)]
  | (k', v') :: rest =>
    if k' = k then (k, v) :: rest else (k', v') :: upsert k v rest

/-- `d[k].append(x)` on a dict of lists: append `x` to the entry at `k`.
(When `k` is absent Python would raise `KeyError`; that state is unreachable
in the script because a section header always creates the entry first, and on
an absent key this model leaves the list unchanged.) -/
def appendAt (k : Line) (x : Line) : List (Line × List Line) → List (Line × List Line)
  | [] => []
  | (k', v) :: rest =>
    if k' = k then (k', v ++ [x]) :: rest else (k', v) :: appendAt k x rest

/-! ### Section Parser (`parse_ini_files`, source lines 33-58) -/

/-- One iteration of the parser loop body (source lines 43-51): strip the
line; skip comments and blank lines; a `[name]` line starts a new current
section with a fresh empty accumulator; any other line is appended to the
current section's accumulator, if a section is active. -/
def parseStep (st : Option Line × Sections) (raw : Line) : Option Line × Sections :=
  let line := pyStrip raw
  if startsWithChar '#' line || decide (line = []) then st
  else if startsWithChar '[' line && endsWithChar ']' line then
    let nm := (line.drop 1).dropLast
    (some nm, upsert nm [] st.2)
  else
    match st.1 with
    | some cur => (some cur, appendAt cur line st.2)
    | none => st

/-- Parse the lines of one file into its sections (the per-file loop of
`parse_ini_files`, starting from `current_section = None`, `sections = {}`). -/
def parseFile (ls : List Line) : Sections :=
  (ls.foldl parseStep (none, [])).2

/-- The main loop of `parse_ini_files` over `(basename, contents)` pairs,
where `contents = none` means the file cannot be opened: the `open` raises,
the exception propagates, and the run aborts (modelled as `.error`). -/
def parseFilesAux (acc : Corpus) :
    List (Line × Option (List Line)) → Except Unit Corpus
  | [] => .ok acc
  | (_, none) :: _ => .error ()
  | (nm, some ls) :: rest => parseFilesAux (upsert nm (parseFile ls) acc) rest

/-- `parse_ini_files`: keyed by base filename, last file with a given name
overwriting earlier ones; aborts on the first unreadable file. -/
def parse_ini_files (files : List (Line × Option (List Line))) : Except Unit Corpus :=
  parseFilesAux [] files

/-- `parse_ini_files` restricted to readable files (the success path). -/
def parseCorpus (files : List (Line × List Line)) : Corpus :=
  files.foldl (fun acc p => upsert p.1 (parseFile p.2) acc) []

/-! ### File Locator (`find_help_files`, source lines 15-31) -/

/-- A directory tree: name, subdirectories, plain file names.  `os.walk`
visits a directory, exposes the subdirectory and file name lists, and then
descends into the (possibly pruned) subdirectories. -/
inductive FsEntry : Type where
  | dir (nm : List Char) (subdirs : List FsEntry) (files : List (List Char)) : FsEntry

/-- The name of a directory entry. -/
def dirName : FsEntry → List Char
  | .dir nm _ _ => nm

/-- `skip_dirs = ['.git', '3rd-party']` (source line 19). -/
def skip_dirs : List (List Char) := [".git".toList, "3rd-party".toList]

/-- `dirs.remove(sd)`: remove the first entry with the given name. -/
def removeFirstNamed (sd : List Char) : List FsEntry → List FsEntry
  | [] => []
  | d :: rest => if dirName d = sd then rest else d :: removeFirstNamed sd rest

/-- `if sd in dirs: dirs.remove(sd)` (source lines 22-23). -/
def pruneStep (acc : List FsEntry) (sd : List Char) : List FsEntry :=
  if acc.any (fun d => decide (dirName d = sd)) then removeFirstNamed sd acc else acc

/-- The `for sd in skip_dirs` pruning loop (source lines 21-23), performed on
the subdirectory list before `os.walk` descends. -/
def pruneDirs (dirs : List FsEntry) : List FsEntry :=
  skip_dirs.foldl pruneStep dirs

/-- `file.startswith("help-") and file.endswith(".txt")` (source line 26). -/
def matchesHelp (f : List Char) : Bool :=
  "help-".toList.isPrefixOf f && ".txt".toList.isSuffixOf f

lemma mem_removeFirstNamed {d : FsEntry} {sd : List Char} :
    ∀ {l : List FsEntry}, d ∈ removeFirstNamed sd l → d ∈ l := by
  intro l
  induction l with
  | nil => intro h; exact h
  | cons e rest ih =>
    intro h
    by_cases he : dirName e = sd
    · simp only [removeFirstNamed, if_pos he] at h
      exact List.mem_cons_of_mem _ h
    · simp only [removeFirstNamed, if_neg he, List.mem_cons] at h
      rcases h with h | h
      · exact h ▸ List.mem_cons_self _ _
      · exact List.mem_cons_of_mem _ (ih h)

lemma mem_pruneStep {d : FsEntry} {acc : List FsEntry} {sd : List Char}
    (h : d ∈ pruneStep acc sd) : d ∈ acc := by
  unfold pruneStep at h
  split at h
  · exact mem_removeFirstNamed h
  · exact h

lemma mem_pruneFold {d : FsEntry} :
    ∀ {sds : List (List Char)} {acc : List FsEntry},
      d ∈ sds.foldl pruneStep acc → d ∈ acc
  | [], _, h => h
  | sd :: rest, acc, h => mem_pruneStep (@mem_pruneFold d rest (pruneStep acc sd) h)

lemma mem_pruneDirs {d : FsEntry} {l : List FsEntry} (h : d ∈ pruneDirs l) :
    d ∈ l :=
  mem_pruneFold h

/-- `find_help_files` (source lines 15-31): walk the tree top-down, prune
`skip_dirs` from the subdirectory list before descending, and collect each
matching file as (path components below the root, file name). -/
def find_help_files : FsEntry → List (List (List Char) × List Char)
  | .dir _ subdirs files =>
    (files.filter matchesHelp).map (fun f => ([], f))
      ++ (pruneDirs subdirs).attach.flatMap
          (fun c => (find_help_files c.1).map (fun pf => (dirName c.1 :: pf.1, pf.2)))
termination_by t => sizeOf t
decreasing_by
  have h2 := List.sizeOf_lt_of_mem (mem_pruneDirs c.2)
  simp only [FsEntry.dir.sizeOf_spec]
  omega

/-- Sibling directory names are unique at every level: the well-formedness
every real filesystem satisfies (a directory cannot hold two children with
the same name), under which `dirs.remove(sd)` removes the only entry named
`sd`. -/
def wellFormed : FsEntry → Bool
  | .dir _ subdirs _ =>
    decide ((subdirs.map dirName).Nodup)
      && subdirs.attach.all (fun c => wellFormed c.1)
termination_by t => sizeOf t
decreasing_by
  have h2 := List.sizeOf_lt_of_mem c.2
  simp only [FsEntry.dir.sizeOf_spec]
  omega

/-! ### Table Renderer (`generate_c_code`, source lines 60-128) -/

/-- The digit-emission loop behind decimal formatting of a natural number
(the shape shared by Python's `str(int)` and Lean's `Nat.repr`): peel the
least significant digit onto the accumulator until the quotient is zero; the
fuel argument bounds the number of iterations. -/
def natDecimalAux : Nat → Nat → List Char → List Char
  | 0, _, acc => acc
  | fuel + 1, n, acc =>
    if n / 10 = 0 then Nat.digitChar (n % 10) :: acc
    else natDecimalAux fuel (n / 10) (Nat.digitChar (n % 10) :: acc)

/-- Decimal digit characters of `idx`, as interpolated by `f"...{idx}"`. -/
def natDecimal (n : Nat) : List Char :=
  natDecimalAux (n + 1) n []

/-- `var_name = filename.replace('-', '_').replace('.', '_')` (source line
88).  Computed by the script but never used for naming the emitted arrays. -/
def fileVarName (filename : Line) : Line :=
  replaceChar '.' ['_'] (replaceChar '-' ['_'] filename)

/-- `ini_array_name = f"ini_entries_{idx}"` (source line 97): the per-file
array is named after the entry's position, not its filename. -/
def iniArrayName (idx : Nat) : Line :=
  "ini_entries_".toList ++ natDecimal idx

/-- `content.replace('"', '\\"').replace("\n", '\\n"\n"')` (source line 93):
escape for embedding in a C string literal; embedded newlines become an
escaped newline, a closing quote, a real newline and a reopening quote, so
adjacent literals concatenate at compile time. -/
def cEscape (content : Line) : Line :=
  replaceChar '\n' ['\\', 'n', '"', '\n', '"'] (replaceChar '"' ['\\', '"'] content)

/-- `    {{ "{section}", "{c_content}" }}` (source line 94). -/
def iniEntryRow (sec : Line) (contentList : List Line) : Line :=
  "    \x7b \"".toList ++ sec ++ "\", \"".toList
    ++ cEscape (joinNL contentList) ++ "\" \x7d".toList

/-- `    {{ NULL, NULL }}` (source lines 95 and 100). -/
def nullRow : Line := "    \x7b NULL, NULL \x7d".toList

/-- One `static ini_entry ini_entries_<idx>[] = {...};` declaration (source
line 98). -/
def iniArrayDecl (idx : Nat) (secs : Sections) : Line :=
  "static ini_entry ".toList ++ iniArrayName idx ++ "[] = \x7b\n".toList
    ++ joinWith ",\n".toList ((secs.map (fun q => iniEntryRow q.1 q.2)) ++ [nullRow])
    ++ "\n\x7d;\n".toList

/-- `    {{ "{filename}", {ini_array_name} }}` (source line 99). -/
def fileEntryRow (idx : Nat) (filename : Line) : Line :=
  "    \x7b \"".toList ++ filename ++ "\", ".toList ++ iniArrayName idx ++ " \x7d".toList

/-- The two header comment lines (source lines 63-66); the second names the
generating tool via `sys.argv[0]`. -/
def headerPart : Line :=
  "// THIS FILE IS GENERATED AUTOMATICALLY! EDITS WILL BE LOST!\n// This file generated by ".toList

/-- The fixed `#include` / `typedef` block (source lines 69-82). -/
def typedefPart : Line :=
  ("#include <stdio.h>\n#include <string.h>\n\ntypedef struct \x7b\n"
    ++ "    const char *section;\n    const char *content;\n\x7d ini_entry;\n\n"
    ++ "typedef struct \x7b\n    const char *filename;\n"
    ++ "    ini_entry *entries;\n\x7d file_entry;\n\n").toList

/-- The emitted lookup function text (source lines 105-126). -/
def lookupFunctionPart : Line :=
  ("\n\nconst char *opal_show_help_get_content(const char *filename, const char* topic)\n"
    ++ "\x7b\n    file_entry *fe;\n    ini_entry *ie;\n\n"
    ++ "    for (int i = 0; help_files[i].filename != NULL; ++i) \x7b\n"
    ++ "        fe = &(help_files[i]);\n"
    ++ "        if (strcmp(fe->filename, filename) == 0) \x7b\n"
    ++ "            for (int j = 0; fe->entries[j].section != NULL; ++j) \x7b\n"
    ++ "                ie = &(fe->entries[j]);\n"
    ++ "                if (strcmp(ie->section, topic) == 0) \x7b\n"
    ++ "                    return ie->content;\n"
    ++ "                \x7d\n            \x7d\n        \x7d\n    \x7d\n\n"
    ++ "    return NULL;\n\x7d\n").toList

/-- `generate_c_code` (source lines 60-128): header comment naming the tool
(`sys.argv[0]`), includes and typedefs, one `ini_entry` array per corpus
entry, the `help_files` table, and the lookup function. -/
def generate_c_code (argv0 : Line) (parsed : Corpus) : Line :=
  headerPart ++ argv0 ++ "\n\n".toList
    ++ typedefPart
    ++ joinWith "\n".toList (parsed.enum.map (fun e => iniArrayDecl e.1 e.2.2))
    ++ "\n".toList
    ++ "static file_entry help_files[] = \x7b\n".toList
    ++ joinWith ",\n".toList
        ((parsed.enum.map (fun e => fileEntryRow e.1 e.2.1)) ++ [nullRow])
    ++ "\n\x7d;\n".toList
    ++ lookupFunctionPart

/-! ### The generated lookup function, at the level of the table data -/

/-- The inner `for (j ...)` scan of `opal_show_help_get_content` (source
lines 115-120): first entry whose section matches the topic. -/
def findSec (topic : Line) : List (Line × Line) → Option Line
  | [] => none
  | (s, c) :: rest => if s = topic then some c else findSec topic rest

/-- The emitted `opal_show_help_get_content` (source lines 105-126), read on
the table data it scans: outer linear scan over file entries; on a filename
match, scan that file's section array; if the topic is not found there, the
outer loop continues; `NULL` (here `none`) if nothing matches. -/
def opal_show_help_get_content (table : List (Line × List (Line × Line)))
    (filename topic : Line) : Option Line :=
  match table with
  | [] => none
  | (fn, entries) :: rest =>
    if fn = filename then
      match findSec topic entries with
      | some c => some c
      | none => opal_show_help_get_content rest filename topic
    else opal_show_help_get_content rest filename topic

/-- The table data as rendered into the generated source, read at the value
level *before* compilation: each section's content is its accumulated lines
joined with newlines (source line 92).  The table the compiled program
actually scans is `compiledTableOf` below, which additionally applies the
compile-time interpretation of the emitted string literals. -/
def tableOf (c : Corpus) : List (Line × List (Line × Line)) :=
  c.map (fun p => (p.1, p.2.map (fun q => (q.1, joinNL q.2))))

/-! ### C string-literal interpretation -/

/-- Modelled from the spec: the "notional unescaping by the generated
function at lookup time", i.e. the C compiler's compile-time interpretation
of the emitted string-literal sequence (escape decoding plus adjacent
string-literal concatenation), which is external to the repository.  The
input is the character region between the opening and closing quote of the
emitted row; `\n` decodes to a newline, any other escaped character decodes
to itself (covering `\"` and `\\`), a bare quote closes the current literal,
and text between literals is skipped until the next quote reopens one. -/
def cUnescapeM : Bool → List Char → List Char
  | _, [] => []
  | true, c :: rest =>
    if c = '\\' then
      match rest with
      | [] => []
      | d :: rest2 => (if d = 'n' then '\n' else d) :: cUnescapeM true rest2
    else if c = '"' then cUnescapeM false rest
    else c :: cUnescapeM true rest
  | false, c :: rest =>
    if c = '"' then cUnescapeM true rest else cUnescapeM false rest

/-- Compile-time value of the emitted literal region. -/
def cUnescape (l : List Char) : List Char := cUnescapeM true l

/-- The table the *compiled* generated program scans: filenames and section
names are emitted raw inside string literals (source lines 94 and 99), so
their linked values are the compile-time interpretation of those raw
characters, and section content is emitted through the escaping of source
line 93, so its linked value is the compile-time interpretation of the
escaped text.  This composes the source's rendering with the spec-modelled
C literal semantics `cUnescape`. -/
def compiledTableOf (c : Corpus) : List (Line × List (Line × Line)) :=
  c.map (fun p =>
    (cUnescape p.1,
     p.2.map (fun q => (cUnescape q.1, cUnescape (cEscape (joinNL q.2))))))

/-! ### `main` (source lines 132-165) -/

/-- `main` after argument parsing (source lines 148-165), over a directory
tree and a read oracle mapping (directory components, file name) to the
file's lines, or `none` if the file cannot be opened.  The corpus is keyed by
`os.path.basename(file_path)`, which for a path produced by
`os.path.join(root_dir, file)` is exactly `file`.  Returns the final content
of the output path, the exit status, and whether the output was written. -/
def mainRun (argv0 : Line) (tree : FsEntry)
    (readFile : List (List Char) → List Char → Option (List Line))
    (existing : Option Line) : Option Line × Nat × Bool :=
  let paths := find_help_files tree
  match parse_ini_files (paths.map (fun pf => (pf.2, readFile pf.1 pf.2))) with
  | .error _ => (existing, 1, false)
  | .ok corpus =>
    let c := generate_c_code argv0 corpus
    match existing with
    | some e => if e = c then (existing, 0, false) else (some c, 0, true)
    | none => (some c, 0, true)

/-! ### Spec-side reading of the parser's behaviour

These definitions follow the spec's words ("the content associated with the
last-parsed occurrence of section `s` in file `f`", "a later file with the
same base name replaces an earlier one") rather than the code's fold, so that
the claims can compare the two. -/

/-- A line that (after stripping) has the exact shape of a section header. -/
def isHeaderLine (l : Line) : Bool :=
  startsWithChar '[' (pyStrip l) && endsWithChar ']' (pyStrip l)

/-- The name enclosed by a section-header line (`line[1:-1]`). -/
def headerName (l : Line) : Line :=
  ((pyStrip l).drop 1).dropLast

/-- A header line introducing section `s`. -/
def isSectionHeaderFor (s : Line) (l : Line) : Bool :=
  isHeaderLine l && decide (headerName l = s)

/-- `s` has at least one header among the given lines. -/
def containsHeader (ls : List Line) (s : Line) : Bool :=
  ls.any (isSectionHeaderFor s)

/-- A stripped line that is kept as content: neither a comment nor blank. -/
def keepPred (c : Line) : Bool :=
  !(startsWithChar '#' c || decide (c = []))

/-- The stripped content lines preceding the first header of a line list. -/
def keptContentLines (ls : List Line) : List Line :=
  ((ls.takeWhile (fun l => !isHeaderLine l)).map pyStrip).filter keepPred

/-- The content belonging to the last occurrence of section `s`: the kept
lines after the last header for `s`, up to the next header of any name. -/
def contentAfterLastHeader : List Line → Line → List Line
  | [], _ => []
  | l :: rest, s =>
    if isSectionHeaderFor s l && !containsHeader rest s then keptContentLines rest
    else contentAfterLastHeader rest s

/-- The lines of the last input file whose base name is `f`. -/
def lastFileNamed (files : List (Line × List Line)) (f : Line) : Option (List Line) :=
  (files.reverse.find? (fun p => decide (p.1 = f))).map (fun p => p.2)

/-- The lookup result the spec promises: the joined content of the last
occurrence of section `s` in the last file named `f`, and the not-found
sentinel when no such file or section exists. -/
def specGetContent (files : List (Line × List Line)) (f s : Line) : Option Line :=
  match lastFileNamed files f with
  | none => none
  | some ls =>
    if containsHeader ls s then some (joinNL (contentAfterLastHeader ls s)) else none

/-! ### Association-list lemmas -/

lemma alookup_upsert_self (k : Line) (v : α) :
    ∀ l : List (Line × α), alookup k (upsert k v l) = some v := by
  intro l
  induction l with
  | nil => simp [upsert, alookup]
  | cons p rest ih =>
    by_cases hp : p.1 = k
    · simp [upsert, hp, alookup]
    · simpa [upsert, hp, alookup] using ih

lemma alookup_upsert_ne (k k' : Line) (v : α) (hne : k' ≠ k) :
    ∀ l : List (Line × α), alookup k (upsert k' v l) = alookup k l := by
  intro l
  induction l with
  | nil => simp [upsert, alookup, hne]
  | cons p rest ih =>
    obtain ⟨k0, v0⟩ := p
    by_cases hp : k0 = k'
    · subst hp
      simp [upsert, alookup, hne]
    · by_cases hk : k0 = k
      · subst hk
        simp [upsert, alookup, hp]
      · simp only [upsert, if_neg hp, alookup, if_neg hk]
        exact ih

lemma alookup_upsert (k k' : Line) (v : α) (l : List (Line × α)) :
    alookup k (upsert k' v l) = if k' = k then some v else alookup k l := by
  by_cases h : k' = k
  · subst h; simp [alookup_upsert_self]
  · simp [h, alookup_upsert_ne k k' v h]

lemma alookup_appendAt_self (k : Line) (x : Line) :
    ∀ l : List (Line × List Line),
      alookup k (appendAt k x l) = (alookup k l).map (fun v => v ++ [x]) := by
  intro l
  induction l with
  | nil => simp [appendAt, alookup]
  | cons p rest ih =>
    by_cases hp : p.1 = k
    · simp [appendAt, hp, alookup]
    · simpa [appendAt, hp, alookup] using ih

lemma alookup_appendAt_ne (k k' : Line) (x : Line) (hne : k' ≠ k) :
    ∀ l : List (Line × List Line),
      alookup k (appendAt k' x l) = alookup k l := by
  intro l
  induction l with
  | nil => simp [appendAt, alookup]
  | cons p rest ih =>
    obtain ⟨k0, v0⟩ := p
    by_cases hp : k0 = k'
    · subst hp
      simp [appendAt, alookup, hne]
    · by_cases hk : k0 = k
      · subst hk
        simp [appendAt, alookup, hp]
      · simp only [appendAt, if_neg hp, alookup, if_neg hk]
        exact ih

/-! ### Parser characterization: the fold computes last-header content -/


lemma isHeaderLine_false_of_skip {l : Line}
    (h : (startsWithChar '#' (pyStrip l) || decide (pyStrip l = [])) = true) :
    isHeaderLine l = false := by
  unfold isHeaderLine
  cases hl : pyStrip l with
  | nil => simp [startsWithChar]
  | cons a t =>
    rw [hl] at h
    simp only [startsWithChar, Bool.or_eq_true, decide_eq_true_eq] at h
    rcases h with h | h
    · subst h
      rw [show startsWithChar '[' ('#' :: t) = false from rfl, Bool.false_and]
    · exact absurd h (by simp)

lemma kept_nil : keptContentLines [] = [] := rfl

lemma kept_cons_of_header {l : Line} {ls : List Line} (h : isHeaderLine l = true) :
    keptContentLines (l :: ls) = [] := by
  simp [keptContentLines, List.takeWhile, h]

lemma kept_cons_of_skip {l : Line} {ls : List Line} (hh : isHeaderLine l = false)
    (hk : keepPred (pyStrip l) = false) :
    keptContentLines (l :: ls) = keptContentLines ls := by
  simp [keptContentLines, List.takeWhile, hh, List.filter, hk]

lemma kept_cons_of_keep {l : Line} {ls : List Line} (hh : isHeaderLine l = false)
    (hk : keepPred (pyStrip l) = true) :
    keptContentLines (l :: ls) = pyStrip l :: keptContentLines ls := by
  simp [keptContentLines, List.takeWhile, hh, List.filter, hk]

lemma containsHeader_cons (l : Line) (ls : List Line) (s : Line) :
    containsHeader (l :: ls) s = (isSectionHeaderFor s l || containsHeader ls s) := by
  simp [containsHeader, List.any_cons]

lemma afterLast_cons (l : Line) (ls : List Line) (s : Line) :
    contentAfterLastHeader (l :: ls) s =
      if isSectionHeaderFor s l && !containsHeader ls s then keptContentLines ls
      else contentAfterLastHeader ls s := rfl

lemma option_map_append_nil (o : Option (List Line)) :
    o.map (fun v : List Line => v ++ []) = o := by
  cases o <;> simp

/-- The central invariant of the parser loop: after folding the remaining
lines over any intermediate state, the entry for section `s` holds exactly
the kept content after the last `[s]` header among those lines; when no such
header remains, the previously accumulated entry is extended by the leading
content lines exactly when `s` is the current section. -/
lemma parse_fold_alookup (s : Line) :
    ∀ (ls : List Line) (cur : Option Line) (secs : Sections),
      alookup s (ls.foldl parseStep (cur, secs)).2 =
        if containsHeader ls s then some (contentAfterLastHeader ls s)
        else
          match cur with
          | some c =>
            if c = s then (alookup s secs).map (fun v => v ++ keptContentLines ls)
            else alookup s secs
          | none => alookup s secs := by
  intro ls
  induction ls with
  | nil =>
    intro cur secs
    have hc : containsHeader [] s = false := rfl
    rw [List.foldl_nil, hc]
    cases cur with
    | none => simp
    | some c =>
      by_cases hcs : c = s
      · simp [hcs, kept_nil, option_map_append_nil]
      · simp [hcs]
  | cons l rest ih =>
    intro cur secs
    rw [List.foldl_cons]
    by_cases h1 : (startsWithChar '#' (pyStrip l) || decide (pyStrip l = [])) = true
    · -- comment or blank line: state unchanged, line invisible to the spec side
      have hstep : parseStep (cur, secs) l = (cur, secs) := by
        simp [parseStep, h1]
      have hh : isHeaderLine l = false := isHeaderLine_false_of_skip h1
      have hsh : isSectionHeaderFor s l = false := by
        simp [isSectionHeaderFor, hh]
      have hk : keepPred (pyStrip l) = false := by
        simp only [keepPred, h1, Bool.not_true]
      have e1 : containsHeader (l :: rest) s = containsHeader rest s := by
        rw [containsHeader_cons, hsh, Bool.false_or]
      have e2 : contentAfterLastHeader (l :: rest) s = contentAfterLastHeader rest s := by
        rw [afterLast_cons, hsh, Bool.false_and]
        simp
      have e3 := @kept_cons_of_skip l rest hh hk
      rw [hstep, ih, e1, e2, e3]
    · by_cases h2 : (startsWithChar '[' (pyStrip l) && endsWithChar ']' (pyStrip l)) = true
      · -- header line: new current section with a fresh empty accumulator
        have hstep : parseStep (cur, secs) l
            = (some (headerName l), upsert (headerName l) [] secs) := by
          simp [parseStep, h1, h2, headerName]
        have hh : isHeaderLine l = true := h2
        have hsh : isSectionHeaderFor s l = decide (headerName l = s) := by
          simp [isSectionHeaderFor, hh]
        rw [hstep, ih]
        by_cases hcr : containsHeader rest s
        · simp [containsHeader_cons, hcr, afterLast_cons]
        · have hcr' : containsHeader rest s = false := by simpa using hcr
          by_cases hns : headerName l = s
          · subst hns
            simp [containsHeader_cons, hsh, hcr', afterLast_cons,
              alookup_upsert_self]
          · have hd : isSectionHeaderFor s l = false := by
              rw [hsh]
              simpa using hns
            have e1 : containsHeader (l :: rest) s = false := by
              rw [containsHeader_cons, hd, Bool.false_or, hcr']
            have e2 : keptContentLines (l :: rest) = [] := kept_cons_of_header hh
            rw [alookup_upsert_ne s (headerName l) [] hns secs, hcr', e1]
            simp only [Bool.false_eq_true, if_false]
            rw [if_neg hns]
            cases cur with
            | none => rfl
            | some c =>
              by_cases hcs : c = s
              · simp [hcs, e2, option_map_append_nil]
              · simp [hcs]
      · -- content line: appended (in stripped form) to the current section
        have hh : isHeaderLine l = false := by
          simpa [isHeaderLine] using h2
        have hsh : isSectionHeaderFor s l = false := by
          simp [isSectionHeaderFor, hh]
        have h1' : (startsWithChar '#' (pyStrip l) || decide (pyStrip l = [])) = false := by
          simpa using h1
        have hk : keepPred (pyStrip l) = true := by
          simp only [keepPred, h1', Bool.not_false]
        have e1 : containsHeader (l :: rest) s = containsHeader rest s := by
          rw [containsHeader_cons, hsh, Bool.false_or]
        have e2 : contentAfterLastHeader (l :: rest) s = contentAfterLastHeader rest s := by
          rw [afterLast_cons, hsh, Bool.false_and]
          simp
        have e3 := @kept_cons_of_keep l rest hh hk
        cases cur with
        | none =>
          have hstep : parseStep (none, secs) l = (none, secs) := by
            simp [parseStep, h1, h2]
          rw [hstep, ih, e1, e2]
        | some c =>
          have hstep : parseStep (some c, secs) l
              = (some c, appendAt c (pyStrip l) secs) := by
            simp [parseStep, h1, h2]
          rw [hstep, ih, e1, e2]
          by_cases hcr : containsHeader rest s
          · simp [hcr]
          · have hcr' : containsHeader rest s = false := by simpa using hcr
            rw [hcr']
            simp only [Bool.false_eq_true, if_false]
            by_cases hcs : c = s
            · subst hcs
              rw [if_pos rfl, if_pos rfl, alookup_appendAt_self, e3]
              cases alookup c secs with
              | none => rfl
              | some v => simp
            · rw [if_neg hcs, if_neg hcs, alookup_appendAt_ne s c (pyStrip l) hcs secs]

/-- Final form for one file: the parser's entry for `s` is exactly the kept
content after the last `[s]` header, or absent when `s` never heads a
section in that file. -/
lemma parseFile_alookup (ls : List Line) (s : Line) :
    alookup s (parseFile ls) =
      if containsHeader ls s then some (contentAfterLastHeader ls s) else none := by
  unfold parseFile
  rw [parse_fold_alookup]
  by_cases h : containsHeader ls s
  · simp [h]
  · have h' : containsHeader ls s = false := by simpa using h
    rw [h']
    simp [alookup]

/-! ### Keys, uniqueness, and the corpus-level fold -/

/-- The key list of an association list. -/
def keysOf (l : List (Line × α)) : List Line := l.map (fun p => p.1)

lemma alookup_cons (k k' : Line) (v : α) (rest : List (Line × α)) :
    alookup k ((k', v) :: rest) = if k' = k then some v else alookup k rest := rfl

lemma keysOf_upsert (k : Line) (v : α) :
    ∀ l : List (Line × α),
      keysOf (upsert k v l) = if k ∈ keysOf l then keysOf l else keysOf l ++ [k] := by
  intro l
  induction l with
  | nil => simp [upsert, keysOf]
  | cons p rest ih =>
    obtain ⟨k0, v0⟩ := p
    by_cases hp : k0 = k
    · subst hp
      have e0 : upsert k0 v ((k0, v0) :: rest) = (k0, v) :: rest := by
        simp [upsert]
      have hmem : k0 ∈ keysOf ((k0, v0) :: rest) := List.mem_cons_self _ _
      rw [e0, if_pos hmem]
      rfl
    · have e0 : upsert k v ((k0, v0) :: rest) = (k0, v0) :: upsert k v rest := by
        simp only [upsert, if_neg hp]
      have e1 : keysOf ((k0, v0) :: upsert k v rest) = k0 :: keysOf (upsert k v rest) := rfl
      have e2 : keysOf ((k0, v0) :: rest) = k0 :: keysOf rest := rfl
      have e3 : k ∈ k0 :: keysOf rest → k ∈ keysOf rest := by
        intro h
        rcases List.mem_cons.mp h with h | h
        · exact absurd h.symm hp
        · exact h
      rw [e0, e1, ih, e2]
      by_cases hk : k ∈ keysOf rest
      · rw [if_pos hk, if_pos (List.mem_cons_of_mem _ hk)]
      · rw [if_neg hk, if_neg (fun hc => hk (e3 hc))]
        rfl

lemma nodup_keys_upsert {k : Line} {v : α} {l : List (Line × α)}
    (h : (keysOf l).Nodup) : (keysOf (upsert k v l)).Nodup := by
  rw [keysOf_upsert]
  by_cases hk : k ∈ keysOf l
  · simpa [hk] using h
  · rw [if_neg hk]
    refine List.nodup_append.mpr ⟨h, List.nodup_singleton k, ?_⟩
    intro a ha hamem
    simp only [List.mem_singleton] at hamem
    exact hk (hamem ▸ ha)

lemma keysOf_appendAt (k x : Line) :
    ∀ l : List (Line × List Line), keysOf (appendAt k x l) = keysOf l := by
  intro l
  induction l with
  | nil => rfl
  | cons p rest ih =>
    obtain ⟨k0, v0⟩ := p
    by_cases hp : k0 = k
    · simp [appendAt, hp, keysOf]
    · simp only [appendAt, if_neg hp, keysOf, List.map_cons]
      exact congrArg (fun t => k0 :: t) ih

lemma nodup_keys_parse_fold :
    ∀ (ls : List Line) (st : Option Line × Sections),
      (keysOf st.2).Nodup → (keysOf (ls.foldl parseStep st).2).Nodup := by
  intro ls
  induction ls with
  | nil => intro st h; exact h
  | cons l rest ih =>
    intro st h
    rw [List.foldl_cons]
    apply ih
    unfold parseStep
    by_cases h1 : (startsWithChar '#' (pyStrip l) || decide (pyStrip l = [])) = true
    · simpa [h1] using h
    · by_cases h2 : (startsWithChar '[' (pyStrip l) && endsWithChar ']' (pyStrip l)) = true
      · simp only [h1, h2, if_true, if_false, Bool.false_eq_true]
        exact nodup_keys_upsert h
      · simp only [h1, h2, if_false, Bool.false_eq_true]
        cases hc : st.1 with
        | none => simpa using h
        | some c => simpa [keysOf_appendAt] using h

lemma nodup_keys_parseFile (ls : List Line) : (keysOf (parseFile ls)).Nodup := by
  unfold parseFile
  exact nodup_keys_parse_fold ls (none, []) (by simp [keysOf])

lemma nodup_keys_parseCorpus_fold :
    ∀ (files : List (Line × List Line)) (acc : Corpus),
      (keysOf acc).Nodup →
      (keysOf (files.foldl (fun a p => upsert p.1 (parseFile p.2) a) acc)).Nodup := by
  intro files
  induction files with
  | nil => intro acc h; exact h
  | cons p rest ih =>
    intro acc h
    rw [List.foldl_cons]
    exact ih _ (nodup_keys_upsert h)

lemma nodup_keys_parseCorpus (files : List (Line × List Line)) :
    (keysOf (parseCorpus files)).Nodup :=
  nodup_keys_parseCorpus_fold files [] (by simp [keysOf])

lemma lastFileNamed_cons (p : Line × List Line) (rest : List (Line × List Line)) (f : Line) :
    lastFileNamed (p :: rest) f =
      match lastFileNamed rest f with
      | some ls => some ls
      | none => if p.1 = f then some p.2 else none := by
  unfold lastFileNamed
  rw [List.reverse_cons, List.find?_append]
  cases hr : (rest.reverse.find? (fun q => decide (q.1 = f))) with
  | some q => simp [Option.or]
  | none =>
    simp only [Option.or]
    by_cases hp : p.1 = f
    · simp [hp]
    · simp [hp]

lemma alookup_corpus_fold (f : Line) :
    ∀ (files : List (Line × List Line)) (acc : Corpus),
      alookup f (files.foldl (fun a p => upsert p.1 (parseFile p.2) a) acc) =
        match lastFileNamed files f with
        | some ls => some (parseFile ls)
        | none => alookup f acc := by
  intro files
  induction files with
  | nil =>
    intro acc
    rfl
  | cons p rest ih =>
    intro acc
    rw [List.foldl_cons, ih, lastFileNamed_cons]
    cases hr : lastFileNamed rest f with
    | some ls => rfl
    | none =>
      by_cases hp : p.1 = f
      · simp [hp, alookup_upsert]
      · simp [hp, alookup_upsert]

lemma alookup_parseCorpus (files : List (Line × List Line)) (f : Line) :
    alookup f (parseCorpus files) =
      match lastFileNamed files f with
      | some ls => some (parseFile ls)
      | none => none := by
  unfold parseCorpus
  rw [alookup_corpus_fold]
  cases lastFileNamed files f <;> rfl

/-! ### The generated lookup over the rendered table -/

lemma findSec_eq_alookup (topic : Line) :
    ∀ l : List (Line × Line), findSec topic l = alookup topic l := by
  intro l
  induction l with
  | nil => rfl
  | cons p rest ih =>
    obtain ⟨a, b⟩ := p
    by_cases hp : a = topic
    · simp [findSec, alookup, hp]
    · simp [findSec, alookup, hp, ih]

lemma getContent_cons (fn : Line) (entries : List (Line × Line))
    (rest : List (Line × List (Line × Line))) (f s : Line) :
    opal_show_help_get_content ((fn, entries) :: rest) f s =
      if fn = f then
        match findSec s entries with
        | some c => some c
        | none => opal_show_help_get_content rest f s
      else opal_show_help_get_content rest f s := rfl

lemma getContent_none_of_not_mem {f : Line} (s : Line) :
    ∀ {table : List (Line × List (Line × Line))}, f ∉ keysOf table →
      opal_show_help_get_content table f s = none := by
  intro table
  induction table with
  | nil => intro _; rfl
  | cons p rest ih =>
    intro h
    simp only [keysOf, List.map_cons, List.mem_cons, not_or] at h
    have hp : p.1 ≠ f := fun he => h.1 he.symm
    obtain ⟨fn, entries⟩ := p
    rw [getContent_cons, if_neg hp]
    exact ih h.2

/-- With unique filenames (which the parser's dict keying guarantees), the
emitted double loop reduces to: look the file up, then look the topic up. -/
lemma getContent_eq_alookup (f s : Line) :
    ∀ {table : List (Line × List (Line × Line))}, (keysOf table).Nodup →
      opal_show_help_get_content table f s =
        (alookup f table).bind (fun entries => alookup s entries) := by
  intro table
  induction table with
  | nil => intro _; rfl
  | cons p rest ih =>
    intro h
    simp only [keysOf, List.map_cons, List.nodup_cons] at h
    obtain ⟨fn, entries⟩ := p
    by_cases hp : fn = f
    · subst hp
      rw [getContent_cons, if_pos rfl, alookup_cons, if_pos rfl,
        findSec_eq_alookup]
      have hnm : fn ∉ keysOf rest := h.1
      cases he : alookup s entries with
      | some c => exact he.symm
      | none =>
        rw [show ((some entries).bind fun es => alookup s es) = alookup s entries from rfl,
          he]
        exact getContent_none_of_not_mem s hnm
    · rw [getContent_cons, if_neg hp, alookup_cons, if_neg hp]
      exact ih h.2

lemma keysOf_tableOf (c : Corpus) : keysOf (tableOf c) = keysOf c := by
  simp only [keysOf, tableOf, List.map_map]
  rfl

lemma alookup_tableOf (f : Line) :
    ∀ c : Corpus,
      alookup f (tableOf c) =
        (alookup f c).map (fun secs => secs.map (fun q => (q.1, joinNL q.2))) := by
  intro c
  induction c with
  | nil => rfl
  | cons p rest ih =>
    obtain ⟨fn, secs⟩ := p
    by_cases hp : fn = f
    · simp [tableOf, alookup, hp]
    · simp only [tableOf, List.map_cons, alookup_cons, if_neg hp]
      simpa [tableOf] using ih

lemma alookup_map_join (s : Line) :
    ∀ secs : Sections,
      alookup s (secs.map (fun q => (q.1, joinNL q.2))) = (alookup s secs).map joinNL := by
  intro secs
  induction secs with
  | nil => rfl
  | cons q rest ih =>
    obtain ⟨nm, cs⟩ := q
    by_cases hq : nm = s
    · simp [alookup, hq]
    · simp only [List.map_cons, alookup_cons, if_neg hq]
      exact ih

/-! ### The escaping transform and its compile-time inverse -/

/-- The per-character effect of the two chained `replace` calls of source
line 93 (the patterns are single characters and neither replacement contains
the other pattern, so the chain acts character-wise). -/
def encodeChar (c : Char) : List Char :=
  if c = '"' then ['\\', '"']
  else if c = '\n' then ['\\', 'n', '"', '\n', '"']
  else [c]

lemma replaceChar_cons (t : Char) (r : List Char) (c : Char) (l : List Char) :
    replaceChar t r (c :: l) = (if c = t then r else [c]) ++ replaceChar t r l := by
  simp [replaceChar]

lemma replaceChar_append (t : Char) (r : List Char) (l1 l2 : List Char) :
    replaceChar t r (l1 ++ l2) = replaceChar t r l1 ++ replaceChar t r l2 := by
  simp [replaceChar]

lemma cEscape_nil : cEscape [] = [] := rfl

lemma cEscape_cons (c : Char) (rest : Line) :
    cEscape (c :: rest) = encodeChar c ++ cEscape rest := by
  unfold cEscape encodeChar
  by_cases h1 : c = '"'
  · subst h1
    rfl
  · by_cases h2 : c = '\n'
    · subst h2
      rfl
    · simp [replaceChar_cons, h1, h2]

lemma cUnescapeM_true_esc (d : Char) (rest : List Char) :
    cUnescapeM true ('\\' :: d :: rest)
      = (if d = 'n' then '\n' else d) :: cUnescapeM true rest := by
  conv_lhs => unfold cUnescapeM
  simp

lemma cUnescapeM_true_quote (rest : List Char) :
    cUnescapeM true ('"' :: rest) = cUnescapeM false rest := by
  conv_lhs => unfold cUnescapeM
  simp

lemma cUnescapeM_true_other {c : Char} (hc1 : c ≠ '\\') (hc2 : c ≠ '"')
    (rest : List Char) :
    cUnescapeM true (c :: rest) = c :: cUnescapeM true rest := by
  conv_lhs => unfold cUnescapeM
  rw [if_neg hc1, if_neg hc2]

lemma cUnescapeM_false_quote (rest : List Char) :
    cUnescapeM false ('"' :: rest) = cUnescapeM true rest := by
  conv_lhs => unfold cUnescapeM
  simp

lemma cUnescapeM_false_other {c : Char} (hc : c ≠ '"') (rest : List Char) :
    cUnescapeM false (c :: rest) = cUnescapeM false rest := by
  conv_lhs => unfold cUnescapeM
  rw [if_neg hc]

/-- For backslash-free content, compile-time interpretation of the escaped
text restores the content exactly. -/
lemma cUnescape_cEscape {s : Line} (h : '\\' ∉ s) : cUnescape (cEscape s) = s := by
  induction s with
  | nil => rfl
  | cons c rest ih =>
    have hc : c ≠ '\\' := fun he => h (he ▸ List.mem_cons_self _ _)
    have hrest : '\\' ∉ rest := fun hm => h (List.mem_cons_of_mem _ hm)
    have ih' := ih hrest
    rw [cEscape_cons]
    unfold encodeChar
    by_cases h1 : c = '"'
    · subst h1
      rw [if_pos rfl]
      show cUnescapeM true ('\\' :: '"' :: cEscape rest) = '"' :: rest
      rw [cUnescapeM_true_esc, if_neg (by decide : ¬('"' : Char) = 'n')]
      exact congrArg (fun t => '"' :: t) ih'
    · by_cases h2 : c = '\n'
      · subst h2
        rw [if_neg h1, if_pos rfl]
        show cUnescapeM true ('\\' :: 'n' :: '"' :: '\n' :: '"' :: cEscape rest)
            = '\n' :: rest
        rw [cUnescapeM_true_esc, if_pos rfl, cUnescapeM_true_quote,
          cUnescapeM_false_other (by decide), cUnescapeM_false_quote]
        exact congrArg (fun t => '\n' :: t) ih'
      · rw [if_neg h1, if_neg h2, List.singleton_append]
        show cUnescapeM true (c :: cEscape rest) = c :: rest
        rw [cUnescapeM_true_other hc h1]
        exact congrArg (fun t => c :: t) ih'

/-! ### Claim C1 -/

/-- Stepping stone for C1: over the value-level table (contents read before
the emit-and-compile round trip), the generated lookup agrees exactly with
the spec-side last-parsed semantics.  The compiled artifact differs from
this on backslash contents; see `getContent_compiled_spec`. -/
lemma getContent_tableOf_spec (files : List (Line × List Line)) (f s : Line) :
    opal_show_help_get_content (tableOf (parseCorpus files)) f s =
      specGetContent files f s := by
  have hnd : (keysOf (tableOf (parseCorpus files))).Nodup := by
    rw [keysOf_tableOf]
    exact nodup_keys_parseCorpus files
  rw [getContent_eq_alookup f s hnd, alookup_tableOf, alookup_parseCorpus]
  cases hl : lastFileNamed files f with
  | none => simp [specGetContent, hl]
  | some ls =>
    simp only [specGetContent, hl]
    rw [show (((some (parseFile ls)).map
            (fun secs => secs.map (fun q => (q.1, joinNL q.2)))).bind
          (fun entries => alookup s entries))
        = alookup s ((parseFile ls).map (fun q => (q.1, joinNL q.2))) from rfl]
    rw [alookup_map_join, parseFile_alookup]
    by_cases hc : containsHeader ls s
    · rw [if_pos hc, if_pos hc]
      rfl
    · have hc' : containsHeader ls s = false := by simpa using hc
      rw [hc']
      simp

lemma findSec_map (g : Line → Line) (s : Line) :
    ∀ entries : List (Line × Line),
      findSec s (entries.map (fun q => (q.1, g q.2))) = (findSec s entries).map g := by
  intro entries
  induction entries with
  | nil => rfl
  | cons q rest ih =>
    obtain ⟨nm, v⟩ := q
    by_cases hq : nm = s
    · simp [findSec, hq]
    · simp only [List.map_cons, findSec, if_neg hq]
      exact ih

/-- Applying a transformation to every stored content value commutes with
the emitted lookup's double scan. -/
lemma getContent_map_content (g : Line → Line) (f s : Line) :
    ∀ table : List (Line × List (Line × Line)),
      opal_show_help_get_content
          (table.map (fun p => (p.1, p.2.map (fun q => (q.1, g q.2))))) f s
        = (opal_show_help_get_content table f s).map g := by
  intro table
  induction table with
  | nil => rfl
  | cons p rest ih =>
    obtain ⟨fn, entries⟩ := p
    rw [List.map_cons, getContent_cons, getContent_cons]
    by_cases hp : fn = f
    · rw [if_pos hp, if_pos hp, findSec_map]
      cases he : findSec s entries with
      | some c => rfl
      | none => exact ih
    · rw [if_neg hp, if_neg hp]
      exact ih

lemma compiledSecs_eq (secs : Sections)
    (hs : ∀ k ∈ keysOf secs, cUnescape k = k) :
    secs.map (fun q => (cUnescape q.1, cUnescape (cEscape (joinNL q.2))))
      = secs.map (fun q => (q.1, cUnescape (cEscape (joinNL q.2)))) := by
  induction secs with
  | nil => rfl
  | cons q rest ih =>
    obtain ⟨nm, cs⟩ := q
    have hn : cUnescape nm = nm := hs nm (List.mem_cons_self _ _)
    rw [List.map_cons, List.map_cons, hn,
      ih (fun k hk => hs k (List.mem_cons_of_mem _ hk))]

/-- When no filename or section name is distorted by its embedding in a
string literal (their compile-time interpretation is themselves), the
compiled table is the value-level table with each content passed through
the escape-then-interpret round trip. -/
lemma compiledTableOf_eq_map :
    ∀ c : Corpus,
      (∀ k ∈ keysOf c, cUnescape k = k) →
      (∀ p ∈ c, ∀ k ∈ keysOf p.2, cUnescape k = k) →
      compiledTableOf c
        = (tableOf c).map
            (fun p => (p.1, p.2.map (fun q => (q.1, cUnescape (cEscape q.2))))) := by
  intro c
  induction c with
  | nil => intro _ _; rfl
  | cons p rest ih =>
    intro h1 h2
    obtain ⟨fn, secs⟩ := p
    have hf : cUnescape fn = fn := h1 fn (List.mem_cons_self _ _)
    have hs : ∀ k ∈ keysOf secs, cUnescape k = k := h2 (fn, secs) (List.mem_cons_self _ _)
    have htail := ih (fun k hk => h1 k (List.mem_cons_of_mem _ hk))
      (fun q hq => h2 q (List.mem_cons_of_mem _ hq))
    show (cUnescape fn, secs.map (fun q => (cUnescape q.1, cUnescape (cEscape (joinNL q.2)))))
          :: compiledTableOf rest
        = ((fn, secs.map (fun q => (q.1, joinNL q.2))) :: tableOf rest).map
            (fun p => (p.1, p.2.map (fun q => (q.1, cUnescape (cEscape q.2)))))
    rw [hf, compiledSecs_eq secs hs, htail, List.map_cons, List.map_map]
    rfl

/-- The lookup the compiled program performs: the spec-side last-parsed
content, passed through the escape-then-interpret round trip, with `none`
preserved on misses. -/
lemma getContent_compiled_spec (files : List (Line × List Line)) (f s : Line)
    (h1 : ∀ k ∈ keysOf (parseCorpus files), cUnescape k = k)
    (h2 : ∀ p ∈ parseCorpus files, ∀ k ∈ keysOf p.2, cUnescape k = k) :
    opal_show_help_get_content (compiledTableOf (parseCorpus files)) f s
      = (specGetContent files f s).map (fun content => cUnescape (cEscape content)) := by
  rw [compiledTableOf_eq_map (parseCorpus files) h1 h2,
    getContent_map_content (fun v => cUnescape (cEscape v)) f s (tableOf (parseCorpus files)),
    getContent_tableOf_spec]

/-- Counterexample to claim C1 as stated: for the valid input file whose
sole content line is the two characters backslash-`n`, the spec-side
last-parsed content is those two characters, but the compiled
`opal_show_help_get_content` returns a single newline — the lookup does not
return *exactly* the parsed content, because the table it scans holds the
compile-time interpretation of the escaped text. -/
theorem C1_exact_content_counterexample :
    specGetContent [("help-a.txt".toList, ["[a]".toList, ['\\', 'n']])]
        "help-a.txt".toList "a".toList = some ['\\', 'n'] ∧
    opal_show_help_get_content
        (compiledTableOf (parseCorpus
          [("help-a.txt".toList, ["[a]".toList, ['\\', 'n']])]))
        "help-a.txt".toList "a".toList = some ['\n'] ∧
    some ['\n'] ≠ some [('\\' : Char), 'n'] := by
  refine ⟨by decide, by decide, by decide⟩

/-- Claim C1, amended: for every parsed corpus whose filenames and section
names are undistorted by string-literal embedding (their compile-time
interpretation is themselves — true of any name without quote or backslash
characters), the generated lookup returns the compile-time interpretation
(unescape of escape) of the content associated with the last-parsed
occurrence of section `s` in file `f` (later occurrences of a repeated
`[s]` header replace earlier ones, and a later file with the same base name
replaces an earlier one); this is exactly that content whenever it contains
no backslash, and the not-found sentinel (`none`, standing for `NULL`) is
returned whenever no entry for `f` exists or `f` has no section `s`. -/
theorem C1_compiled_lookup_last_parsed (files : List (Line × List Line)) (f s : Line)
    (h1 : ∀ k ∈ keysOf (parseCorpus files), cUnescape k = k)
    (h2 : ∀ p ∈ parseCorpus files, ∀ k ∈ keysOf p.2, cUnescape k = k) :
    (opal_show_help_get_content (compiledTableOf (parseCorpus files)) f s
      = (specGetContent files f s).map (fun content => cUnescape (cEscape content))) ∧
    (∀ content, specGetContent files f s = some content → '\\' ∉ content →
      opal_show_help_get_content (compiledTableOf (parseCorpus files)) f s
        = some content) ∧
    (specGetContent files f s = none →
      opal_show_help_get_content (compiledTableOf (parseCorpus files)) f s = none) := by
  have he := getContent_compiled_spec files f s h1 h2
  refine ⟨he, fun content hc hbs => ?_, fun hn => ?_⟩
  · rw [he, hc]
    show some (cUnescape (cEscape content)) = some content
    rw [cUnescape_cEscape hbs]
  · rw [he, hn]
    rfl

/-- Witness for the amended C1 on a concrete backslash-free corpus: a hit
returns the parsed content exactly and a missing section returns the
sentinel. -/
theorem C1_compiled_lookup_last_parsed_witness :
    (∀ k ∈ keysOf (parseCorpus [("help-a.txt".toList, ["[a]".toList, "x".toList])]),
      cUnescape k = k) ∧
    (∀ p ∈ parseCorpus [("help-a.txt".toList, ["[a]".toList, "x".toList])],
      ∀ k ∈ keysOf p.2, cUnescape k = k) ∧
    specGetContent [("help-a.txt".toList, ["[a]".toList, "x".toList])]
        "help-a.txt".toList "a".toList = some "x".toList ∧
    ('\\' ∉ "x".toList) ∧
    ((opal_show_help_get_content
        (compiledTableOf (parseCorpus [("help-a.txt".toList, ["[a]".toList, "x".toList])]))
        "help-a.txt".toList "a".toList
      = (specGetContent [("help-a.txt".toList, ["[a]".toList, "x".toList])]
          "help-a.txt".toList "a".toList).map
            (fun content => cUnescape (cEscape content))) ∧
      (∀ content,
        specGetContent [("help-a.txt".toList, ["[a]".toList, "x".toList])]
          "help-a.txt".toList "a".toList = some content → '\\' ∉ content →
        opal_show_help_get_content
            (compiledTableOf (parseCorpus
              [("help-a.txt".toList, ["[a]".toList, "x".toList])]))
            "help-a.txt".toList "a".toList = some content) ∧
      (specGetContent [("help-a.txt".toList, ["[a]".toList, "x".toList])]
          "help-a.txt".toList "a".toList = none →
        opal_show_help_get_content
            (compiledTableOf (parseCorpus
              [("help-a.txt".toList, ["[a]".toList, "x".toList])]))
            "help-a.txt".toList "a".toList = none)) :=
  ⟨by decide, by decide, by decide, by decide,
   C1_compiled_lookup_last_parsed
     [("help-a.txt".toList, ["[a]".toList, "x".toList])]
     "help-a.txt".toList "a".toList (by decide) (by decide)⟩

/-! ### Claim C4 -/

/-- Claim C4: within every file, the parsed section names are unique, and
whenever a repeated `[name]` header is encountered the accumulator for that
name is reset to empty, so the final content for `name` comes only from the
lines after its last header occurrence. -/
theorem C4_repeated_header_resets (ls : List Line) (s : Line) :
    (keysOf (parseFile ls)).Nodup ∧
    (containsHeader ls s = true →
      alookup s (parseFile ls) = some (contentAfterLastHeader ls s)) := by
  refine ⟨nodup_keys_parseFile ls, fun h => ?_⟩
  rw [parseFile_alookup, if_pos h]

/-- Witness for C4 at a concrete file with a repeated header: the second
`[topic]` discards the earlier accumulation, leaving only the later lines. -/
theorem C4_repeated_header_resets_witness :
    containsHeader ["[topic]".toList, "old line".toList, "[topic]".toList,
      "new line".toList] "topic".toList = true ∧
    (keysOf (parseFile ["[topic]".toList, "old line".toList, "[topic]".toList,
      "new line".toList])).Nodup ∧
    alookup "topic".toList (parseFile ["[topic]".toList, "old line".toList,
      "[topic]".toList, "new line".toList]) =
      some (contentAfterLastHeader ["[topic]".toList, "old line".toList,
        "[topic]".toList, "new line".toList] "topic".toList) :=
  ⟨by decide,
   (C4_repeated_header_resets ["[topic]".toList, "old line".toList, "[topic]".toList,
     "new line".toList] "topic".toList).1,
   (C4_repeated_header_resets ["[topic]".toList, "old line".toList, "[topic]".toList,
     "new line".toList] "topic".toList).2 (by decide)⟩

/-! ### Claim C2: the escaping transform and its compile-time inverse -/

/-- Counterexample to claim C2 as stated: the escaping does not escape
backslashes, so a section content consisting of the two characters
backslash-`n` — which the Parser happily stores, as the second conjunct
shows — is escaped to the literal text `\n`, which C interprets as a single
newline, not the original two characters. -/
theorem C2_roundtrip_counterexample :
    cUnescape (cEscape ['\\', 'n']) ≠ ['\\', 'n'] ∧
    cUnescape (cEscape ['\\', 'n']) = ['\n'] ∧
    alookup "a".toList (parseFile ["[a]".toList, ['\\', 'n']]) = some [['\\', 'n']] := by
  refine ⟨by decide, by decide, by decide⟩

/-- Claim C2, amended: for every section content string that contains no
backslash character (in particular any content built only from quotes,
newlines and other non-backslash characters), the Renderer's escaping
followed by the C compile-time unescaping yields exactly the original
content, and the escaping transform is injective on such contents. -/
theorem C2_escape_roundtrip (s t : Line) (hs : '\\' ∉ s) (ht : '\\' ∉ t) :
    cUnescape (cEscape s) = s ∧ (cEscape s = cEscape t → s = t) := by
  refine ⟨cUnescape_cEscape hs, fun he => ?_⟩
  rw [← cUnescape_cEscape hs, he, cUnescape_cEscape ht]

/-- Witness for the amended C2 at content with embedded quotes and
newlines. -/
theorem C2_escape_roundtrip_witness :
    ('\\' ∉ "say \"hi\"\nbye".toList) ∧ ('\\' ∉ "other".toList) ∧
    (cUnescape (cEscape "say \"hi\"\nbye".toList) = "say \"hi\"\nbye".toList ∧
      (cEscape "say \"hi\"\nbye".toList = cEscape "other".toList →
        "say \"hi\"\nbye".toList = "other".toList)) :=
  ⟨by decide, by decide,
   C2_escape_roundtrip "say \"hi\"\nbye".toList "other".toList (by decide) (by decide)⟩

/-! ### Claim C3: lines are stored stripped, not verbatim -/

/-- Counterexample to claim C3 as stated: a content line carrying
surrounding whitespace is stored in stripped form, not in its original
pre-trim form. -/
theorem C3_verbatim_counterexample :
    alookup "a".toList (parseFile ["[a]".toList, "  hello  ".toList])
        = some ["hello".toList] ∧
    some ["hello".toList] ≠ some ["  hello  ".toList] := by
  refine ⟨by decide, by decide⟩

/-- Claim C3, amended: for every input line that is not blank, not a
comment, and not a section header while a current section is active, the
Parser appends the line's *stripped* form (surrounding whitespace removed by
`line.strip()`) to that section's accumulator. -/
theorem C3_content_line_appended_stripped (raw : Line) (cur : Line) (secs : Sections)
    (h1 : (startsWithChar '#' (pyStrip raw) || decide (pyStrip raw = [])) = false)
    (h2 : (startsWithChar '[' (pyStrip raw) && endsWithChar ']' (pyStrip raw)) = false) :
    (parseStep (some cur, secs) raw).2 = appendAt cur (pyStrip raw) secs ∧
    alookup cur (parseStep (some cur, secs) raw).2
      = (alookup cur secs).map (fun v => v ++ [pyStrip raw]) := by
  have hstep : parseStep (some cur, secs) raw = (some cur, appendAt cur (pyStrip raw) secs) := by
    simp [parseStep, h1, h2]
  rw [hstep]
  exact ⟨rfl, alookup_appendAt_self cur (pyStrip raw) secs⟩

/-- Witness for the amended C3: the whitespace-wrapped line is appended as
its stripped form. -/
theorem C3_content_line_appended_stripped_witness :
    ((startsWithChar '#' (pyStrip "  hello  ".toList)
        || decide (pyStrip "  hello  ".toList = [])) = false) ∧
    ((startsWithChar '[' (pyStrip "  hello  ".toList)
        && endsWithChar ']' (pyStrip "  hello  ".toList)) = false) ∧
    ((parseStep (some "a".toList, [("a".toList, [])]) "  hello  ".toList).2
        = appendAt "a".toList (pyStrip "  hello  ".toList) [("a".toList, [])] ∧
      alookup "a".toList (parseStep (some "a".toList, [("a".toList, [])]) "  hello  ".toList).2
        = (alookup "a".toList [("a".toList, ([] : List Line))]).map
            (fun v => v ++ [pyStrip "  hello  ".toList])) :=
  ⟨by decide, by decide,
   C3_content_line_appended_stripped "  hello  ".toList "a".toList [("a".toList, [])]
     (by decide) (by decide)⟩

/-! ### Claim C10: every stored content line is stripped, non-blank,
non-comment -/

lemma dropWhile_head_false (p : Char → Bool) :
    ∀ (l : List Char) (a : Char) (t : List Char), l.dropWhile p = a :: t → p a = false := by
  intro l
  induction l with
  | nil => intro a t h; exact absurd h (by simp)
  | cons b r ih =>
    intro a t h
    rw [List.dropWhile_cons] at h
    by_cases hb : p b
    · rw [if_pos hb] at h
      exact ih a t h
    · rw [if_neg hb] at h
      have hba : b = a := (List.cons.injEq b r a t ▸ h).1
      have hb' : p b = false := by simpa using hb
      exact hba ▸ hb'

lemma dropWhile_idem (p : Char → Bool) (l : List Char) :
    (l.dropWhile p).dropWhile p = l.dropWhile p := by
  cases hd : l.dropWhile p with
  | nil => rfl
  | cons a t =>
    rw [List.dropWhile_cons, dropWhile_head_false p l a t hd]
    simp

/-- Python's `strip` is idempotent: a stripped line has no surrounding
whitespace left. -/
lemma pyStrip_idem (l : Line) : pyStrip (pyStrip l) = pyStrip l := by
  have h1 : ((l.dropWhile isPySpace).reverse.dropWhile isPySpace).reverse.dropWhile isPySpace
      = ((l.dropWhile isPySpace).reverse.dropWhile isPySpace).reverse := by
    cases hrv : ((l.dropWhile isPySpace).reverse.dropWhile isPySpace).reverse with
    | nil => rfl
    | cons a t =>
      have hpre : ((l.dropWhile isPySpace).reverse.dropWhile isPySpace).reverse
          <+: l.dropWhile isPySpace := by
        have hsuf : (l.dropWhile isPySpace).reverse.dropWhile isPySpace
            <:+ (l.dropWhile isPySpace).reverse := List.dropWhile_suffix _
        have h' := List.reverse_prefix.mpr hsuf
        rwa [List.reverse_reverse] at h'
      rw [hrv] at hpre
      obtain ⟨s, hs⟩ := hpre
      have ha : isPySpace a = false := by
        apply dropWhile_head_false isPySpace l a (t ++ s)
        rw [← hs]
        rfl
      rw [List.dropWhile_cons, ha]
      simp
  unfold pyStrip
  rw [h1, List.reverse_reverse, dropWhile_idem]

lemma mem_upsert {kv : Line × α} {k : Line} {v : α} :
    ∀ {l : List (Line × α)}, kv ∈ upsert k v l → kv = (k, v) ∨ kv ∈ l := by
  intro l
  induction l with
  | nil =>
    intro h
    simp only [upsert] at h
    rcases List.mem_cons.mp h with h | h
    · exact Or.inl h
    · exact absurd h (by simp)
  | cons p rest ih =>
    intro h
    obtain ⟨k0, v0⟩ := p
    by_cases hp : k0 = k
    · rw [show upsert k v ((k0, v0) :: rest) = (k, v) :: rest from by simp [upsert, hp]] at h
      rcases List.mem_cons.mp h with h | h
      · exact Or.inl h
      · exact Or.inr (List.mem_cons_of_mem _ h)
    · rw [show upsert k v ((k0, v0) :: rest) = (k0, v0) :: upsert k v rest from by
        simp [upsert, hp]] at h
      rcases List.mem_cons.mp h with h | h
      · exact Or.inr (h ▸ List.mem_cons_self _ _)
      · rcases ih h with h | h
        · exact Or.inl h
        · exact Or.inr (List.mem_cons_of_mem _ h)

lemma mem_appendAt {kv : Line × List Line} {k x : Line} :
    ∀ {l : Sections}, kv ∈ appendAt k x l →
      kv ∈ l ∨ ∃ v0, (kv.1, v0) ∈ l ∧ kv.2 = v0 ++ [x] := by
  intro l
  induction l with
  | nil => intro h; exact absurd h (by simp [appendAt])
  | cons p rest ih =>
    intro h
    obtain ⟨k0, v0⟩ := p
    by_cases hp : k0 = k
    · rw [show appendAt k x ((k0, v0) :: rest) = (k0, v0 ++ [x]) :: rest from by
        simp [appendAt, hp]] at h
      rcases List.mem_cons.mp h with h | h
      · refine Or.inr ⟨v0, ?_, ?_⟩
        · rw [show kv.1 = k0 from by rw [h]]
          exact List.mem_cons_self _ _
        · rw [show kv.2 = v0 ++ [x] from by rw [h]]
      · exact Or.inl (List.mem_cons_of_mem _ h)
    · rw [show appendAt k x ((k0, v0) :: rest) = (k0, v0) :: appendAt k x rest from by
        simp [appendAt, hp]] at h
      rcases List.mem_cons.mp h with h | h
      · exact Or.inl (h ▸ List.mem_cons_self _ _)
      · rcases ih h with h | ⟨w, hw, he⟩
        · exact Or.inl (List.mem_cons_of_mem _ h)
        · exact Or.inr ⟨w, List.mem_cons_of_mem _ hw, he⟩

/-- The three-part invariant of every stored content line. -/
def goodContentLine (c : Line) : Prop :=
  c ≠ [] ∧ startsWithChar '#' c = false ∧ pyStrip c = c

/-- Every line list stored in a `Sections` value satisfies the invariant. -/
def allGood (secs : Sections) : Prop :=
  ∀ kv ∈ secs, ∀ c ∈ kv.2, goodContentLine c

lemma good_of_keep {raw : Line} (hk : keepPred (pyStrip raw) = true) :
    goodContentLine (pyStrip raw) := by
  simp only [keepPred, Bool.not_eq_true', Bool.or_eq_false_iff, decide_eq_false_iff_not] at hk
  exact ⟨hk.2, hk.1, pyStrip_idem raw⟩

lemma allGood_upsert_nil {secs : Sections} (h : allGood secs) (k : Line) :
    allGood (upsert k [] secs) := by
  intro kv hm c hc
  rcases mem_upsert hm with he | hm'
  · rw [he] at hc
    exact absurd hc (by simp)
  · exact h kv hm' c hc

lemma allGood_appendAt {secs : Sections} (h : allGood secs) (k : Line) {x : Line}
    (hx : goodContentLine x) : allGood (appendAt k x secs) := by
  intro kv hm c hc
  rcases mem_appendAt hm with hm' | ⟨v0, hv0, he⟩
  · exact h kv hm' c hc
  · rw [he] at hc
    rcases List.mem_append.mp hc with hc | hc
    · exact h (kv.1, v0) hv0 c hc
    · rw [List.mem_singleton.mp hc]
      exact hx

lemma parse_fold_good :
    ∀ (ls : List Line) (st : Option Line × Sections),
      allGood st.2 → allGood ((ls.foldl parseStep st).2) := by
  intro ls
  induction ls with
  | nil => intro st h; exact h
  | cons l rest ih =>
    intro st h
    rw [List.foldl_cons]
    apply ih
    unfold parseStep
    by_cases h1 : (startsWithChar '#' (pyStrip l) || decide (pyStrip l = [])) = true
    · simpa [h1] using h
    · by_cases h2 : (startsWithChar '[' (pyStrip l) && endsWithChar ']' (pyStrip l)) = true
      · simp only [h1, h2, if_true, if_false, Bool.false_eq_true]
        exact allGood_upsert_nil h _
      · simp only [h1, h2, if_false, Bool.false_eq_true]
        have h1' : (startsWithChar '#' (pyStrip l) || decide (pyStrip l = [])) = false := by
          simpa using h1
        have hk : keepPred (pyStrip l) = true := by
          simp only [keepPred, h1', Bool.not_false]
        cases hc : st.1 with
        | none => simpa using h
        | some c =>
          show allGood ((some c, appendAt c (pyStrip l) st.2)).2
          exact allGood_appendAt h c (good_of_keep hk)

lemma parseFile_good (ls : List Line) : allGood (parseFile ls) :=
  parse_fold_good ls (none, []) (fun kv hm => absurd hm (List.not_mem_nil kv))

lemma alookup_mem :
    ∀ {l : List (Line × α)} {k : Line} {v : α}, alookup k l = some v → (k, v) ∈ l := by
  intro l
  induction l with
  | nil => intro k v h; exact absurd h (by simp [alookup])
  | cons p rest ih =>
    intro k v h
    obtain ⟨k0, v0⟩ := p
    by_cases hp : k0 = k
    · subst hp
      rw [alookup_cons, if_pos rfl] at h
      have : v0 = v := Option.some.inj h
      rw [← this]
      exact List.mem_cons_self _ _
    · rw [alookup_cons, if_neg hp] at h
      exact List.mem_cons_of_mem _ (ih h)

/-- Every value stored in the parsed corpus is the parse of some input
file, so its stored lines satisfy the invariant. -/
lemma parseCorpus_fold_good :
    ∀ (files : List (Line × List Line)) (acc : Corpus),
      (∀ p ∈ acc, ∀ kv ∈ p.2, ∀ c ∈ kv.2, goodContentLine c) →
      ∀ p ∈ files.foldl (fun a q => upsert q.1 (parseFile q.2) a) acc,
        ∀ kv ∈ p.2, ∀ c ∈ kv.2, goodContentLine c := by
  intro files
  induction files with
  | nil => intro acc hacc; exact hacc
  | cons q rest ih =>
    intro acc hacc
    rw [List.foldl_cons]
    apply ih
    intro p hp
    rcases mem_upsert hp with he | hp'
    · rw [show p.2 = parseFile q.2 from congrArg Prod.snd he]
      exact fun kv hkv c hc => parseFile_good q.2 kv hkv c hc
    · exact hacc p hp'

lemma parseCorpus_good (files : List (Line × List Line)) :
    ∀ p ∈ parseCorpus files, ∀ kv ∈ p.2, ∀ c ∈ kv.2, goodContentLine c :=
  parseCorpus_fold_good files [] (fun p hp => absurd hp (List.not_mem_nil p))

/-- Every line the spec-side segment extraction keeps satisfies the
invariant. -/
lemma kept_good {ls : List Line} {c : Line} (hc : c ∈ keptContentLines ls) :
    goodContentLine c := by
  unfold keptContentLines at hc
  obtain ⟨hm, hk⟩ := List.mem_filter.mp hc
  obtain ⟨raw, _, he⟩ := List.mem_map.mp hm
  rw [← he] at hk
  rw [← he]
  exact good_of_keep hk

lemma afterLast_good :
    ∀ (ls : List Line) (s : Line) {c : Line},
      c ∈ contentAfterLastHeader ls s → goodContentLine c := by
  intro ls
  induction ls with
  | nil => intro s c hc; exact absurd hc (by simp [contentAfterLastHeader])
  | cons l rest ih =>
    intro s c hc
    rw [afterLast_cons] at hc
    split at hc
    · exact kept_good hc
    · exact ih s hc

lemma specGetContent_some {files : List (Line × List Line)} {f s content : Line}
    (h : specGetContent files f s = some content) :
    ∃ ls, lastFileNamed files f = some ls ∧ containsHeader ls s = true ∧
      content = joinNL (contentAfterLastHeader ls s) := by
  unfold specGetContent at h
  cases hl : lastFileNamed files f with
  | none =>
    rw [hl] at h
    exact absurd h (by simp)
  | some ls =>
    rw [hl] at h
    have h' : (if containsHeader ls s = true
          then some (joinNL (contentAfterLastHeader ls s)) else none)
        = some content := h
    by_cases hc : containsHeader ls s
    · rw [if_pos hc] at h'
      exact ⟨ls, rfl, hc, (Option.some.inj h').symm⟩
    · rw [if_neg hc] at h'
      exact absurd h' (by simp)

/-- Counterexample to claim C10 as stated: its consequence for the
generated lookup fails in the compiled artifact.  The Parser stores the
two-character line backslash-`n` (non-blank, stripped, non-comment), but
the compiled `opal_show_help_get_content` returns the one-character string
consisting of a newline — a content string that strips to nothing, i.e.
consists of blank lines and surrounding whitespace. -/
theorem C10_returned_blank_counterexample :
    alookup "a".toList (parseFile ["[a]".toList, ['\\', 'n']])
        = some [['\\', 'n']] ∧
    opal_show_help_get_content
        (compiledTableOf (parseCorpus
          [("help-a.txt".toList, ["[a]".toList, ['\\', 'n']])]))
        "help-a.txt".toList "a".toList = some ['\n'] ∧
    pyStrip ['\n'] = [] ∧ (['\n'] : Line) ≠ [] := by
  refine ⟨by decide, by decide, by decide, by decide⟩

/-- Claim C10, amended: in every parsed corpus, every stored content line
is non-empty, carries no leading or trailing whitespace (stripping it again
is the identity), and does not begin with `#`.  The consequence for the
generated lookup holds only up to the escape-then-compile round trip: when
names are undistorted by literal embedding and the content is
backslash-free, the compiled lookup returns exactly the newline-join of
such lines — so the returned string has no blank lines, no comment lines,
and no surrounding whitespace on any line; a stored backslash escape,
however, can decode into blank lines or whitespace (see counterexample). -/
theorem C10_stored_lines_and_returned_content (files : List (Line × List Line))
    (f s content : Line)
    (h1 : ∀ k ∈ keysOf (parseCorpus files), cUnescape k = k)
    (h2 : ∀ p ∈ parseCorpus files, ∀ k ∈ keysOf p.2, cUnescape k = k)
    (hspec : specGetContent files f s = some content)
    (hbs : '\\' ∉ content) :
    (∀ p ∈ parseCorpus files, ∀ kv ∈ p.2, ∀ c ∈ kv.2,
      c ≠ [] ∧ startsWithChar '#' c = false ∧ pyStrip c = c) ∧
    opal_show_help_get_content (compiledTableOf (parseCorpus files)) f s
      = some content ∧
    ∃ lines, content = joinNL lines ∧
      ∀ l ∈ lines, l ≠ [] ∧ startsWithChar '#' l = false ∧ pyStrip l = l := by
  obtain ⟨ls, hlast, hcont, hjoin⟩ := specGetContent_some hspec
  refine ⟨parseCorpus_good files, ?_, ?_⟩
  · rw [compiledTableOf_eq_map (parseCorpus files) h1 h2,
      getContent_map_content (fun v => cUnescape (cEscape v)) f s
        (tableOf (parseCorpus files)),
      getContent_tableOf_spec, hspec]
    show some (cUnescape (cEscape content)) = some content
    rw [cUnescape_cEscape hbs]
  · exact ⟨contentAfterLastHeader ls s, hjoin,
      fun l hl => afterLast_good ls s hl⟩

/-- Witness for the amended C10 on a file whose content line arrives padded
with whitespace. -/
theorem C10_stored_lines_and_returned_content_witness :
    (∀ k ∈ keysOf (parseCorpus [("help-a.txt".toList, ["[s]".toList, "  x  ".toList])]),
      cUnescape k = k) ∧
    (∀ p ∈ parseCorpus [("help-a.txt".toList, ["[s]".toList, "  x  ".toList])],
      ∀ k ∈ keysOf p.2, cUnescape k = k) ∧
    specGetContent [("help-a.txt".toList, ["[s]".toList, "  x  ".toList])]
        "help-a.txt".toList "s".toList = some "x".toList ∧
    ('\\' ∉ "x".toList) ∧
    ((∀ p ∈ parseCorpus [("help-a.txt".toList, ["[s]".toList, "  x  ".toList])],
        ∀ kv ∈ p.2, ∀ c ∈ kv.2,
          c ≠ [] ∧ startsWithChar '#' c = false ∧ pyStrip c = c) ∧
      opal_show_help_get_content
          (compiledTableOf (parseCorpus
            [("help-a.txt".toList, ["[s]".toList, "  x  ".toList])]))
          "help-a.txt".toList "s".toList = some "x".toList ∧
      ∃ lines, "x".toList = joinNL lines ∧
        ∀ l ∈ lines, l ≠ [] ∧ startsWithChar '#' l = false ∧ pyStrip l = l) :=
  ⟨by decide, by decide, by decide, by decide,
   C10_stored_lines_and_returned_content
     [("help-a.txt".toList, ["[s]".toList, "  x  ".toList])]
     "help-a.txt".toList "s".toList "x".toList
     (by decide) (by decide) (by decide) (by decide)⟩

/-! ### Claim C5: excluded directories are pruned before descent -/

lemma noNamed_removeFirst {sd : List Char} :
    ∀ {l : List FsEntry}, (l.map dirName).Nodup →
      ∀ d ∈ removeFirstNamed sd l, dirName d ≠ sd := by
  intro l
  induction l with
  | nil => intro _ d hd; exact absurd hd (by simp [removeFirstNamed])
  | cons e rest ih =>
    intro hnd d hd
    simp only [List.map_cons, List.nodup_cons] at hnd
    by_cases he : dirName e = sd
    · rw [show removeFirstNamed sd (e :: rest) = rest from by
        simp [removeFirstNamed, he]] at hd
      intro hds
      exact hnd.1 (he ▸ hds ▸ List.mem_map_of_mem dirName hd)
    · rw [show removeFirstNamed sd (e :: rest) = e :: removeFirstNamed sd rest from by
        simp [removeFirstNamed, he]] at hd
      rcases List.mem_cons.mp hd with hd | hd
      · exact hd ▸ he
      · exact ih hnd.2 d hd

lemma removeFirstNamed_sublist (sd : List Char) :
    ∀ l : List FsEntry, List.Sublist (removeFirstNamed sd l) l := by
  intro l
  induction l with
  | nil => exact List.Sublist.refl []
  | cons e rest ih =>
    by_cases he : dirName e = sd
    · rw [show removeFirstNamed sd (e :: rest) = rest from by simp [removeFirstNamed, he]]
      exact List.sublist_cons_self e rest
    · rw [show removeFirstNamed sd (e :: rest) = e :: removeFirstNamed sd rest from by
        simp [removeFirstNamed, he]]
      exact List.Sublist.cons₂ e ih

lemma names_nodup_pruneStep {acc : List FsEntry} {sd : List Char}
    (h : (acc.map dirName).Nodup) : ((pruneStep acc sd).map dirName).Nodup := by
  unfold pruneStep
  split
  · exact List.Nodup.sublist (List.Sublist.map dirName (removeFirstNamed_sublist sd acc)) h
  · exact h

lemma noNamed_pruneStep_self {acc : List FsEntry} {sd : List Char}
    (h : (acc.map dirName).Nodup) : ∀ d ∈ pruneStep acc sd, dirName d ≠ sd := by
  intro d hd
  unfold pruneStep at hd
  split at hd
  · exact noNamed_removeFirst h d hd
  · rename_i hany
    have hall : ∀ x ∈ acc, ¬dirName x = sd := by simpa using hany
    exact hall d hd

lemma pruneDirs_no_skip {l : List FsEntry} (hnd : (l.map dirName).Nodup) :
    ∀ d ∈ pruneDirs l, dirName d ∉ skip_dirs := by
  intro d hd
  have e : pruneDirs l = pruneStep (pruneStep l ".git".toList) "3rd-party".toList := rfl
  rw [e] at hd
  have h2 : dirName d ≠ "3rd-party".toList :=
    noNamed_pruneStep_self (names_nodup_pruneStep hnd) d hd
  have hd1 : d ∈ pruneStep l ".git".toList := mem_pruneStep hd
  have h1 : dirName d ≠ ".git".toList := noNamed_pruneStep_self hnd d hd1
  intro hskip
  rcases (by simpa [skip_dirs] using hskip :
      dirName d = ".git".toList ∨ dirName d = "3rd-party".toList) with h | h
  · exact h1 h
  · exact h2 h

lemma wellFormed_dir {nm : List Char} {subdirs : List FsEntry} {files : List (List Char)}
    (h : wellFormed (.dir nm subdirs files) = true) :
    (subdirs.map dirName).Nodup ∧ ∀ c ∈ subdirs, wellFormed c = true := by
  rw [wellFormed] at h
  rw [Bool.and_eq_true] at h
  refine ⟨by simpa using h.1, fun c hc => ?_⟩
  have := List.all_eq_true.mp h.2 ⟨c, hc⟩ (List.mem_attach _ _)
  simpa using this

lemma mem_find_help_files_dir {nm : List Char} {subdirs : List FsEntry}
    {files : List (List Char)} {pf : List (List Char) × List Char}
    (h : pf ∈ find_help_files (.dir nm subdirs files)) :
    (∃ f, pf = (([] : List (List Char)), f)) ∨
    ∃ c, c ∈ pruneDirs subdirs ∧
      ∃ q, q ∈ find_help_files c ∧ pf = (dirName c :: q.1, q.2) := by
  rw [find_help_files] at h
  rcases List.mem_append.mp h with h | h
  · rcases List.mem_map.mp h with ⟨f, _, he⟩
    exact Or.inl ⟨f, he.symm⟩
  · rcases List.mem_flatMap.mp h with ⟨⟨c, hc⟩, _, hm⟩
    rcases List.mem_map.mp hm with ⟨q, hq, he⟩
    exact Or.inr ⟨c, hc, q, hq, he.symm⟩

/-- Claim C5: for every well-formed directory tree (sibling directory names
unique, as on a real filesystem) no located help file has a path component
matching an excluded directory name: excluded subtrees are pruned from the
subdirectory list before `os.walk` descends, so nothing under them is ever
visited. -/
theorem C5_excluded_dirs_never_listed (t : FsEntry)
    (pf : List (List Char) × List Char) (comp : List Char)
    (hw : wellFormed t = true) (hpf : pf ∈ find_help_files t)
    (hcomp : comp ∈ pf.1) : comp ∉ skip_dirs := by
  suffices H : ∀ (N : Nat) (t : FsEntry), sizeOf t ≤ N → wellFormed t = true →
      ∀ pf ∈ find_help_files t, ∀ comp ∈ pf.1, comp ∉ skip_dirs from
    H (sizeOf t) t le_rfl hw pf hpf comp hcomp
  intro N
  induction N with
  | zero =>
    intro t ht
    exfalso
    cases t with
    | dir nm subdirs files =>
      simp only [FsEntry.dir.sizeOf_spec] at ht
      omega
  | succ N ihN =>
    intro t ht hw pf hpf comp hcomp
    cases t with
    | dir nm subdirs files =>
      obtain ⟨hnd, hsub⟩ := wellFormed_dir hw
      rcases mem_find_help_files_dir hpf with ⟨f, he⟩ | ⟨c, hc, q, hq, he⟩
      · rw [he] at hcomp
        exact absurd hcomp (by simp)
      · rw [he] at hcomp
        rcases List.mem_cons.mp hcomp with h | h
        · intro hskip
          exact pruneDirs_no_skip hnd c hc (h ▸ hskip)
        · have hcmem : c ∈ subdirs := mem_pruneDirs hc
          have hsize : sizeOf c ≤ N := by
            have hlt := List.sizeOf_lt_of_mem hcmem
            simp only [FsEntry.dir.sizeOf_spec] at ht
            omega
          exact ihN c hsize (hsub c hcmem) q hq comp h

/-- A concrete two-level tree for the C5 witness: a normal subdirectory
holding a help file next to a `.git` directory holding one. -/
def exSubDir : FsEntry := .dir "sub".toList [] ["help-x.txt".toList]

/-- The excluded sibling. -/
def exGitDir : FsEntry := .dir ".git".toList [] ["help-y.txt".toList]

/-- The witness root. -/
def exTree : FsEntry := .dir "root".toList [exSubDir, exGitDir] ["help-top.txt".toList]

lemma exSubDir_wellFormed : wellFormed exSubDir = true := by
  rw [exSubDir, wellFormed]
  decide

lemma exGitDir_wellFormed : wellFormed exGitDir = true := by
  rw [exGitDir, wellFormed]
  decide

lemma exTree_wellFormed : wellFormed exTree = true := by
  rw [exTree, wellFormed, Bool.and_eq_true]
  refine ⟨by decide, List.all_eq_true.mpr ?_⟩
  rintro ⟨c, hc⟩ _
  show wellFormed c = true
  rcases List.mem_cons.mp hc with h | h
  · exact h ▸ exSubDir_wellFormed
  · rcases List.mem_cons.mp h with h | h
    · exact h ▸ exGitDir_wellFormed
    · exact absurd h (by simp)

lemma exSubDir_find : find_help_files exSubDir
    = [(([] : List (List Char)), "help-x.txt".toList)] := by
  rw [exSubDir, find_help_files]
  decide

lemma exTree_find_mem :
    ((["sub".toList] : List (List Char)), "help-x.txt".toList) ∈ find_help_files exTree := by
  rw [exTree, find_help_files]
  refine List.mem_append_right _ (List.mem_flatMap.mpr ⟨⟨exSubDir, ?_⟩, List.mem_attach _ _, ?_⟩)
  · show exSubDir ∈ pruneDirs [exSubDir, exGitDir]
    rw [show pruneDirs [exSubDir, exGitDir] = [exSubDir] from rfl]
    exact List.mem_cons_self _ _
  · show (["sub".toList], "help-x.txt".toList)
        ∈ (find_help_files exSubDir).map (fun pf => (dirName exSubDir :: pf.1, pf.2))
    rw [exSubDir_find]
    exact List.mem_cons_self _ _

/-- Witness for C5: in the concrete tree the help file found under `sub` has
its one path component outside the skip list. -/
theorem C5_excluded_dirs_never_listed_witness :
    wellFormed exTree = true ∧
    ((["sub".toList] : List (List Char)), "help-x.txt".toList) ∈ find_help_files exTree ∧
    "sub".toList ∈ [("sub".toList : List Char)] ∧
    "sub".toList ∉ skip_dirs :=
  ⟨exTree_wellFormed, exTree_find_mem, List.mem_cons_self _ _,
   C5_excluded_dirs_never_listed exTree (["sub".toList], "help-x.txt".toList)
     "sub".toList exTree_wellFormed exTree_find_mem (List.mem_cons_self _ _)⟩

/-! ### Claim C6: an unreadable input aborts the run, output untouched -/

lemma parseFilesAux_error {f : Line} :
    ∀ {entries : List (Line × Option (List Line))} {acc : Corpus},
      (f, (none : Option (List Line))) ∈ entries →
      parseFilesAux acc entries = .error () := by
  intro entries
  induction entries with
  | nil => intro acc h; exact absurd h (by simp)
  | cons p rest ih =>
    intro acc h
    obtain ⟨nm, oc⟩ := p
    cases oc with
    | none => rfl
    | some ls =>
      rcases List.mem_cons.mp h with h | h
      · exact absurd (congrArg Prod.snd h) (by simp)
      · exact ih h

/-- Claim C6: if any input file located by the Locator cannot be opened, the
run aborts with the propagated error (non-zero status) and the output path's
prior content is unchanged — nothing is written. -/
theorem C6_unreadable_input_aborts (argv0 : Line) (t : FsEntry)
    (readFile : List (List Char) → List Char → Option (List Line))
    (existing : Option Line) (pf : List (List Char) × List Char)
    (hpf : pf ∈ find_help_files t) (hread : readFile pf.1 pf.2 = none) :
    mainRun argv0 t readFile existing = (existing, 1, false) := by
  have hmem : (pf.2, (none : Option (List Line)))
      ∈ (find_help_files t).map (fun q => (q.2, readFile q.1 q.2)) :=
    List.mem_map.mpr ⟨pf, hpf, by simp [hread]⟩
  simp only [mainRun, parse_ini_files]
  rw [parseFilesAux_error hmem]

/-- A flat witness tree holding a single help file at the root. -/
def exFlatTree : FsEntry := .dir "root".toList [] ["help-a.txt".toList]

lemma exFlatTree_find :
    find_help_files exFlatTree = [(([] : List (List Char)), "help-a.txt".toList)] := by
  rw [exFlatTree, find_help_files]
  decide

/-- Witness for C6: with a read oracle that fails on the located file, the
run exits with status 1 and the previous output content is untouched. -/
theorem C6_unreadable_input_aborts_witness :
    ((([] : List (List Char)), "help-a.txt".toList) ∈ find_help_files exFlatTree) ∧
    ((fun (_ : List (List Char)) (_ : List Char) => (none : Option (List Line)))
        [] "help-a.txt".toList = none) ∧
    mainRun "tool".toList exFlatTree (fun _ _ => none) (some "old".toList)
      = (some "old".toList, 1, false) :=
  ⟨by
    rw [exFlatTree_find]
    exact List.mem_cons_self _ _,
   rfl,
   C6_unreadable_input_aborts "tool".toList exFlatTree (fun _ _ => none)
     (some "old".toList) ([], "help-a.txt".toList)
     (by
       rw [exFlatTree_find]
       exact List.mem_cons_self _ _)
     rfl⟩

/-! ### Claim C7: the second run with unchanged inputs is a no-op -/

/-- Claim C7: when parsing succeeds, running the generator twice with
unchanged inputs produces identical output bytes on both runs, and the
second run exits with status 0 without writing: because the freshly rendered
bytes equal the bytes the first run left at the output path, the file is
left untouched. -/
theorem C7_second_run_is_noop (argv0 : Line) (t : FsEntry)
    (readFile : List (List Char) → List Char → Option (List Line))
    (existing : Option Line) (d : Corpus)
    (hparse : parse_ini_files
        ((find_help_files t).map (fun q => (q.2, readFile q.1 q.2))) = .ok d) :
    mainRun argv0 t readFile (mainRun argv0 t readFile existing).1
      = ((mainRun argv0 t readFile existing).1, 0, false) := by
  simp only [mainRun]
  rw [hparse]
  cases existing with
  | none => simp
  | some e =>
    by_cases he : e = generate_c_code argv0 d
    · simp [he]
    · simp [he]

/-- Witness for C7 on the flat tree with a fixed readable file. -/
theorem C7_second_run_is_noop_witness :
    (parse_ini_files ((find_help_files exFlatTree).map
        (fun q => (q.2, (fun (_ : List (List Char)) (_ : List Char) =>
          some ["[s]".toList, "x".toList]) q.1 q.2)))
      = .ok [("help-a.txt".toList, [("s".toList, ["x".toList])])]) ∧
    mainRun "tool".toList exFlatTree (fun _ _ => some ["[s]".toList, "x".toList])
        (mainRun "tool".toList exFlatTree
          (fun _ _ => some ["[s]".toList, "x".toList]) none).1
      = ((mainRun "tool".toList exFlatTree
          (fun _ _ => some ["[s]".toList, "x".toList]) none).1, 0, false) :=
  ⟨by
    rw [exFlatTree_find]
    rfl,
   C7_second_run_is_noop "tool".toList exFlatTree
     (fun _ _ => some ["[s]".toList, "x".toList]) none
     [("help-a.txt".toList, [("s".toList, ["x".toList])])]
     (by
       rw [exFlatTree_find]
       rfl)⟩

/-! ### Claim C8: renderer output depends on the corpus and on `sys.argv[0]` -/

/-- Counterexample to claim C8 as stated: the rendered bytes depend on
something outside the corpus, namely the invoking script path `sys.argv[0]`
interpolated into the header comment; the same (empty) corpus rendered under
two different invocation names yields different bytes. -/
theorem C8_argv0_dependence_counterexample :
    generate_c_code "./a.py".toList [] ≠ generate_c_code "./b.py".toList [] := by
  decide

/-- Everything after the interpolated `sys.argv[0]`, a function of the
corpus alone. -/
def genBody (parsed : Corpus) : Line :=
  "\n\n".toList ++ typedefPart
    ++ joinWith "\n".toList (parsed.enum.map (fun e => iniArrayDecl e.1 e.2.2))
    ++ "\n".toList
    ++ "static file_entry help_files[] = \x7b\n".toList
    ++ joinWith ",\n".toList
        ((parsed.enum.map (fun e => fileEntryRow e.1 e.2.1)) ++ [nullRow])
    ++ "\n\x7d;\n".toList
    ++ lookupFunctionPart

/-- Claim C8, amended: the Renderer's output is a function of exactly the
corpus (with its iteration order) and the invoking tool path `sys.argv[0]`;
the dependence on the latter is confined to the generated-by header line,
and two runs with the same corpus and the same invocation path produce
byte-identical output. -/
theorem C8_deterministic_given_corpus_and_argv0 (a : Line) (p : Corpus) :
    generate_c_code a p = headerPart ++ a ++ genBody p := by
  unfold generate_c_code genBody
  simp [List.append_assoc]

/-! ### Claim C9: arrays are named by corpus position, not filename -/

/-- The (filename → array name) association the Renderer emits into
`help_files`: the entry at enumeration index `idx` is paired with
`ini_entries_<idx>` (source lines 87, 97 and 99). -/
def entryArrayName (parsed : Corpus) (filename : Line) : Option Line :=
  (parsed.enum.find? (fun e => decide (e.2.1 = filename))).map (fun e => iniArrayName e.1)

/-- Counterexample to claim C9 as stated: the same filename receives
different array names depending on its position in the corpus, so the name
is not a function of the filename; the filename transform `var_name`
(replace `-` and `.` by `_`) is computed but never used for the name. -/
theorem C9_name_not_function_of_filename_counterexample :
    entryArrayName [("help-a.txt".toList, [])] "help-a.txt".toList
        = some "ini_entries_0".toList ∧
    entryArrayName [("help-b.txt".toList, []), ("help-a.txt".toList, [])]
        "help-a.txt".toList = some "ini_entries_1".toList ∧
    "ini_entries_0".toList ≠ "ini_entries_1".toList ∧
    fileVarName "help-a.txt".toList = "help_a_txt".toList := by
  refine ⟨by decide, by decide, by decide, by decide⟩

/-- Decimal value of a digit character. -/
def charDigitVal (c : Char) : Nat := c.toNat - 48

/-- Running decimal value of a digit string, folded from the left. -/
def decValFrom (a : Nat) (l : List Char) : Nat :=
  l.foldl (fun x c => 10 * x + charDigitVal c) a

lemma digitChar_val : ∀ k, k < 10 → charDigitVal (Nat.digitChar k) = k := by decide

lemma natDecimalAux_val :
    ∀ (fuel n : Nat) (acc : List Char), n < fuel →
      decValFrom 0 (natDecimalAux fuel n acc) = decValFrom n acc := by
  intro fuel
  induction fuel with
  | zero => intro n acc h; exact absurd h (Nat.not_lt_zero n)
  | succ fuel ih =>
    intro n acc h
    unfold natDecimalAux
    by_cases hdiv : n / 10 = 0
    · rw [if_pos hdiv]
      have hn : n % 10 = n := by omega
      show decValFrom (10 * 0 + charDigitVal (Nat.digitChar (n % 10))) acc = decValFrom n acc
      rw [digitChar_val (n % 10) (by omega), hn]
      norm_num
    · rw [if_neg hdiv]
      have hlt : n / 10 < fuel := by omega
      rw [ih (n / 10) (Nat.digitChar (n % 10) :: acc) hlt]
      show decValFrom (10 * (n / 10) + charDigitVal (Nat.digitChar (n % 10))) acc
          = decValFrom n acc
      rw [digitChar_val (n % 10) (by omega)]
      have : 10 * (n / 10) + n % 10 = n := by omega
      rw [this]

lemma natDecimal_val (n : Nat) : decValFrom 0 (natDecimal n) = n := by
  unfold natDecimal
  rw [natDecimalAux_val (n + 1) n [] (Nat.lt_succ_self n)]
  rfl

lemma natDecimal_inj {m n : Nat} (h : natDecimal m = natDecimal n) : m = n := by
  rw [← natDecimal_val m, ← natDecimal_val n, h]

/-- Claim C9, amended: each per-file array is named `ini_entries_<idx>` by a
deterministic, collision-free transform of the entry's *position* in the
corpus iteration (never of its filename): distinct positions always receive
distinct names. -/
theorem C9_array_named_by_index (i j : Nat) (hij : i ≠ j) :
    iniArrayName i ≠ iniArrayName j := by
  intro h
  unfold iniArrayName at h
  exact hij (natDecimal_inj (List.append_cancel_left h))

/-- Witness for the amended C9 at the first two indices. -/
theorem C9_array_named_by_index_witness :
    (0 : Nat) ≠ 1 ∧ iniArrayName 0 ≠ iniArrayName 1 :=
  ⟨by decide, C9_array_named_by_index 0 1 (by decide)⟩

end HelpGen
